import Mathlib

set_option maxHeartbeats 1000000
set_option maxRecDepth 8000

/-
Shallow embedding of the resume-parser repository (src/nlp parser module and
src/main.py).  Python strings are modelled as Lean `String` (a list of
characters); regular expressions are modelled by explicit matchers that
follow the backtracking semantics of the concrete patterns appearing in
the source; Python dicts keyed by strings are modelled as association
lists with insert-or-overwrite semantics; the external collaborators
(spaCy NER, the sentence-transformer encoder, dateparser) are parameters
of the functions that invoke them.
-/

/-- ASCII whitespace characters: the characters matched by Python `\s`
and stripped by `str.strip()` (we model the ASCII fragment; all inputs
considered here are ASCII). -/
def isPyWs (c : Char) : Bool :=
  c == ' ' || c == '\t' || c == '\n' || c == '\r' || c == Char.ofNat 11 || c == Char.ofNat 12

/-- Horizontal whitespace class, Python regex `[ \t]`. -/
def isHt (c : Char) : Bool := c == ' ' || c == '\t'

/-- The class `[A-Z]`. -/
def isUpperAZ (c : Char) : Bool := 'A' ≤ c && c ≤ 'Z'

/-- Character class `[A-Z\s/&]` used by the heading regex of
nlp_py.split_sections. -/
def inHeadClass (c : Char) : Bool := isUpperAZ c || isPyWs c || c == '/' || c == '&'

/-- Remove a maximal run of `q`-characters from the end of a list. -/
def dropEndWhile (q : Char → Bool) (l : List Char) : List Char :=
  (l.reverse.dropWhile q).reverse

/-- Python `str.strip()` on a character list. -/
def pyStripL (l : List Char) : List Char := dropEndWhile isPyWs (l.dropWhile isPyWs)

/-- Python `str.strip()`. -/
def pyStrip (s : String) : String := ⟨pyStripL s.data⟩

/-- Python `str.strip(chars)`: strip any of the given characters from both ends. -/
def pyStripChars (cs : String) (s : String) : String :=
  ⟨dropEndWhile (fun c => cs.data.contains c) (s.data.dropWhile (fun c => cs.data.contains c))⟩

/-- Python `str.upper()` (ASCII fragment). -/
def pyUpper (s : String) : String := ⟨s.data.map Char.toUpper⟩

/-- Python `str.lower()` (ASCII fragment). -/
def pyLower (s : String) : String := ⟨s.data.map Char.toLower⟩

/-- Python `str.title()` (ASCII fragment): the first cased character of every
maximal alphabetic run is uppercased, the following ones lowercased.  The
boolean argument records whether the previous character was alphabetic. -/
def pyTitleL : Bool → List Char → List Char
  | _, [] => []
  | prev, c :: rest =>
    if c.isAlpha then
      (if prev then c.toLower else c.toUpper) :: pyTitleL true rest
    else c :: pyTitleL false rest

/-- Python `str.title()`. -/
def pyTitle (s : String) : String := ⟨pyTitleL false s.data⟩

/-- Python `str.split(sep)` for a one-character separator: keeps empty pieces,
always returns at least one piece. -/
def splitCharL (sep : Char) : List Char → List (List Char)
  | [] => [[]]
  | c :: rest =>
    if c == sep then [] :: splitCharL sep rest
    else
      match splitCharL sep rest with
      | [] => [[c]]
      | l :: ls => (c :: l) :: ls

/-- Python `str.split(sep)` on strings. -/
def pySplit (sep : Char) (s : String) : List String :=
  (splitCharL sep s.data).map (fun l => ⟨l⟩)

/-- Python `sep.join(list)`. -/
def pyJoin (sep : String) : List String → String
  | [] => ""
  | [x] => x
  | x :: xs => x ++ sep ++ pyJoin sep xs

/-- Python dict assignment `d[k] = v` on an association list: overwrite in
place if the key is present, append otherwise. -/
def dictInsert : List (String × String) → String → String → List (String × String)
  | [], k, v => [(k, v)]
  | (k', v') :: t, k, v => if k' = k then (k, v) :: t else (k', v') :: dictInsert t k v

/-- Python truthiness of an optional string (`None` and `""` are falsy). -/
def isTruthy : Option String → Bool
  | none => false
  | some s => s != ""

/-- Python substring test `pat in s` at character-list level. -/
def pyContainsL (pat : List Char) : List Char → Bool
  | [] => pat.isEmpty
  | s@(_ :: rest) => (List.isPrefixOf pat s) || pyContainsL pat rest

/-- Python substring test `pat in s`. -/
def pyContains (pat s : String) : Bool := pyContainsL pat.data s.data

/-- `re.sub(r"\s+", "", s)`: delete every whitespace character. -/
def removeWs (s : String) : String := ⟨s.data.filter (fun c => !(isPyWs c))⟩

/-- Largest `j < n` with `P j`, `none` if there is none.  Used to model the
backtracking of a greedy sub-pattern to the last position where the rest of
the pattern can match. -/
def lastSat (P : Nat → Bool) : Nat → Option Nat
  | 0 => none
  | n + 1 => if P n then some n else lastSat P n

/-- `re.sub(r"P+", " ", s)` at character-list level: every maximal run of
`P`-class characters is replaced by a single space.  The boolean argument
records whether we are inside a run. -/
def subRuns (P : Char → Bool) : Bool → List Char → List Char
  | _, [] => []
  | inRun, c :: rest =>
    if P c then
      if inRun then subRuns P true rest
      else ' ' :: subRuns P true rest
    else c :: subRuns P false rest

/-- One attempt of the heading regex `^(?:[A-Z][A-Z\s/&]+)$` (MULTILINE) at a
line-start position: a first `[A-Z]` character, then a maximal run of class
characters, backtracked to the last position where `$` holds, i.e. the last
newline inside the run, or the end of the text when the run reaches it. -/
def matchHeadingAt : List Char → Option (List Char × List Char)
  | [] => none
  | c :: rest =>
    if isUpperAZ c then
      let run := rest.takeWhile inHeadClass
      let tl := rest.dropWhile inHeadClass
      let kopt :=
        if tl.isEmpty then (if 1 ≤ run.length then some run.length else none)
        else lastSat (fun k => decide (1 ≤ k) && (run.get? k == some '\n')) run.length
      match kopt with
      | some k => some (c :: run.take k, run.drop k ++ tl)
      | none => none
    else none

/-- `re.findall` of the heading pattern: scan left to right, attempting the
(`^`-anchored) pattern exactly at line starts, continuing after each
non-overlapping match.  The fuel argument is the length of the text. -/
def headFindAux : Nat → List Char → Bool → List String
  | _, [], _ => []
  | 0, _ :: _, _ => []
  | fuel + 1, c :: rest, atStart =>
    if atStart then
      match matchHeadingAt (c :: rest) with
      | some (m, rest2) => (⟨m⟩ : String) :: headFindAux fuel rest2 false
      | none => headFindAux fuel rest (c == '\n')
    else headFindAux fuel rest (c == '\n')

/-- `re.findall(r"^(?:[A-Z][A-Z\s/&]+)$", text, flags=re.MULTILINE)`. -/
def headFindall (text : String) : List String :=
  headFindAux text.data.length text.data true

/-- Generic `re.findall` driver for unanchored patterns: try `step` at every
position, left to right, continuing after each non-overlapping match. -/
def scanAll (step : List Char → Option (List Char × List Char)) :
    Nat → List Char → List (List Char)
  | _, [] => []
  | 0, _ :: _ => []
  | fuel + 1, c :: rest =>
    match step (c :: rest) with
    | some (m, rest2) => m :: scanAll step fuel rest2
    | none => scanAll step fuel rest

/-- The class `[a-zA-Z0-9._%+-]` (local part of the email regex). -/
def localClass (c : Char) : Bool :=
  c.isAlpha || c.isDigit || c == '.' || c == '_' || c == '%' || c == '+' || c == '-'

/-- The class `[a-zA-Z0-9.-]` (domain part of the email regex). -/
def domainClass (c : Char) : Bool := c.isAlpha || c.isDigit || c == '.' || c == '-'

/-- Whether the character at index `i` exists and is alphabetic. -/
def isAlphaAt (l : List Char) (i : Nat) : Bool :=
  match l.get? i with
  | some c => c.isAlpha
  | none => false

/-- One attempt of the email regex `[a-zA-Z0-9._%+-]+@[a-zA-Z0-9.-]+\.[a-zA-Z]`
followed by one-or-more further letters (the `2,`-bound), at a position: a
nonempty greedy local run, a literal `@`, then the greedy domain run
backtracked to the last dot followed by at least two letters. -/
def emailStep (s : List Char) : Option (List Char × List Char) :=
  let lrun := s.takeWhile localClass
  if lrun.isEmpty then none
  else
    match s.dropWhile localClass with
    | '@' :: rest =>
      let drun := rest.takeWhile domainClass
      let tl := rest.dropWhile domainClass
      match lastSat (fun d => decide (1 ≤ d) && (drun.get? d == some '.')
          && isAlphaAt drun (d + 1) && isAlphaAt drun (d + 2)) drun.length with
      | some d =>
        let letters := (drun.drop (d + 1)).takeWhile Char.isAlpha
        some (lrun ++ '@' :: (drun.take d ++ '.' :: letters),
              (drun.drop (d + 1)).dropWhile Char.isAlpha ++ tl)
      | none => none
    | _ => none

/-- The class `[\d\-\s]` of the phone regex. -/
def phoneClass (c : Char) : Bool := c.isDigit || c == '-' || isPyWs c

/-- Common part of the phone regex after the optional `+` and first digit:
a greedy run of `[\d\-\s]` backtracked so that at least 9 characters are
consumed and the next character is a digit (the final `\d`). -/
def phoneCore (pre : List Char) (body : List Char) : Option (List Char × List Char) :=
  match lastSat (fun m => decide (9 ≤ m) &&
      (match (body.takeWhile phoneClass).get? m with
        | some c => c.isDigit
        | none => false)) (body.takeWhile phoneClass).length with
  | some m => some (pre ++ (body.takeWhile phoneClass).take (m + 1),
      (body.takeWhile phoneClass).drop (m + 1) ++ body.dropWhile phoneClass)
  | none => none

/-- One attempt of the phone regex `\+?\d[\d\-\s]...` (9 or more class
characters) followed by a final `\d`, at a position.  The optional `+` is
only useful when followed by a digit (`\d` cannot match `+` itself, so there
is no alternative parse without it). -/
def phonePlus : List Char → Option (List Char × List Char)
  | [] => none
  | d :: rest2 => if d.isDigit then phoneCore ['+', d] rest2 else none

def phoneStep : List Char → Option (List Char × List Char)
  | [] => none
  | c :: rest =>
    if c == '+' then phonePlus rest
    else if c.isDigit then phoneCore [c] rest else none

/-- The class `[^\s|]` of the link regex. -/
def urlTailClass (c : Char) : Bool := !(isPyWs c) && !(c == '|')

/-- Finish a link match: one-or-more `[^\s|]` characters after the scheme. -/
def linkTail (pre : String) (r : List Char) : Option (List Char × List Char) :=
  let run := r.takeWhile urlTailClass
  if run.isEmpty then none else some (pre.data ++ run, r.dropWhile urlTailClass)

/-- One attempt of the link regex `(https?://[^\s|]+|www\.[^\s|]+)` at a
position. -/
def linkStep : List Char → Option (List Char × List Char)
  | 'h' :: 't' :: 't' :: 'p' :: 's' :: ':' :: '/' :: '/' :: r => linkTail "https://" r
  | 'h' :: 't' :: 't' :: 'p' :: ':' :: '/' :: '/' :: r => linkTail "http://" r
  | 'w' :: 'w' :: 'w' :: '.' :: r => linkTail "www." r
  | _ => none

/-- First alternative of a date side: `[A-Za-z][A-Za-z][A-Za-z]\s\d\d\d\d`. -/
def dateAlt1 : List Char → Option (List Char × List Char)
  | a :: b :: c :: w :: d1 :: d2 :: d3 :: d4 :: rest =>
    if a.isAlpha && b.isAlpha && c.isAlpha && isPyWs w
        && d1.isDigit && d2.isDigit && d3.isDigit && d4.isDigit then
      some ([a, b, c, w, d1, d2, d3, d4], rest)
    else none
  | _ => none

/-- Second alternative of a date side: `\d\d\d\d`. -/
def dateAlt2 : List Char → Option (List Char × List Char)
  | d1 :: d2 :: d3 :: d4 :: rest =>
    if d1.isDigit && d2.isDigit && d3.isDigit && d4.isDigit then
      some ([d1, d2, d3, d4], rest)
    else none
  | _ => none

/-- Third alternative of a date side: the literal `Present`. -/
def dateAlt3 : List Char → Option (List Char × List Char)
  | 'P' :: 'r' :: 'e' :: 's' :: 'e' :: 'n' :: 't' :: rest => some ("Present".data, rest)
  | _ => none

/-- One side of the date-range regex, alternatives tried in source order. -/
def matchDateSide (s : List Char) : Option (List Char × List Char) :=
  match dateAlt1 s with
  | some r => some r
  | none =>
    match dateAlt2 s with
    | some r => some r
    | none => dateAlt3 s

/-- The separator `\s*[-–]\s*` of the date-range regex; returns the rest of
the input after the separator. -/
def dateSep (s : List Char) : Option (List Char) :=
  match s.dropWhile isPyWs with
  | c :: rest => if c == '-' || c == '–' then some (rest.dropWhile isPyWs) else none
  | [] => none

/-- One attempt of the full date-range regex of parse_experience_block at a
position; returns the two captured groups and the rest of the input. -/
def dateStep (s : List Char) : Option (List Char × List Char × List Char) :=
  match matchDateSide s with
  | some (m1, r1) =>
    match dateSep r1 with
    | some r2 =>
      match matchDateSide r2 with
      | some (m2, r3) => some (m1, m2, r3)
      | none => none
    | none => none
  | none => none

/-- `re.findall` of the date-range regex: scan left to right, collecting the
group pairs of the non-overlapping matches. -/
def dateFindAux : Nat → List Char → List (String × String)
  | _, [] => []
  | 0, _ :: _ => []
  | fuel + 1, c :: rest =>
    match dateStep (c :: rest) with
    | some (m1, m2, rest2) => ((⟨m1⟩ : String), (⟨m2⟩ : String)) :: dateFindAux fuel rest2
    | none => dateFindAux fuel rest

/-- Cons a character onto the first piece of a split result. -/
def consHead (c : Char) : List (List Char) → List (List Char)
  | [] => [[c]]
  | l :: ls => (c :: l) :: ls

/-- `re.split(r"\n\s*\n", s)`: a separator is a newline, a greedy whitespace
run backtracked to its last newline, and that newline. -/
def blockSplitAux : Nat → List Char → List (List Char)
  | _, [] => [[]]
  | 0, rest => [rest]
  | fuel + 1, c :: rest =>
    if c == '\n' then
      let r := rest.takeWhile isPyWs
      match lastSat (fun k => r.get? k == some '\n') r.length with
      | some k => [] :: blockSplitAux fuel (r.drop (k + 1) ++ rest.dropWhile isPyWs)
      | none => consHead c (blockSplitAux fuel rest)
    else consHead c (blockSplitAux fuel rest)

/-- `re.split(r"\n\s*\n", s)` on strings. -/
def blockSplit (s : String) : List String :=
  (blockSplitAux s.data.length s.data).map (fun l => ⟨l⟩)

/-- The degree-keyword alternatives of extract_education, expanded in regex
alternation order (`B\.?Sc` tries the dotted spelling first, etc.). -/
def degreeAlts : List String :=
  ["B.Sc", "BSc", "M.Sc", "MSc", "B.Eng", "BEng", "M.Eng", "MEng",
   "Bachelor", "Master", "PhD", "MBA"]

/-- Case-insensitive prefix test (re.IGNORECASE literal matching). -/
def ciPrefix : List Char → List Char → Bool
  | [], _ => true
  | _ :: _, [] => false
  | p :: ps, c :: cs => (p.toLower == c.toLower) && ciPrefix ps cs

/-- Leftmost case-insensitive match of the degree alternation in a line;
returns the matched substring of the input (group 1 of the regex). -/
def degreeSearchAux : List Char → Option String
  | [] => none
  | c :: rest =>
    match degreeAlts.findSome? (fun a =>
        if ciPrefix a.data (c :: rest) then some ((⟨(c :: rest).take a.data.length⟩ : String))
        else none) with
    | some m => some m
    | none => degreeSearchAux rest

/-- First match of the degree regex of extract_education in a line. -/
def degreeSearch (line : String) : Option String := degreeSearchAux line.data

/-- Modelled from the spec: the external date-parsing utility (`dateparser`)
resolves a matched date token — `Mon YYYY` or `YYYY`, as produced by the
date-range regex — to its calendar year, which is the numeric value of the
token's digit component. -/
def yearOf (s : String) : Nat :=
  (s.data.filter Char.isDigit).foldl (fun n c => 10 * n + (c.toNat - 48)) 0

structure Contacts where
  email : List String
  phone : List String
deriving DecidableEq

structure Links where
  linkedin : List String
  github : List String
  other : List String
deriving DecidableEq

structure ExperienceEntry where
  start_date : Option String
  end_date : Option String
  role : Option String
  company : Option String
  description : List String
deriving DecidableEq

structure EducationEntry where
  degree : String
  institution : String
deriving DecidableEq

structure ResumeRecord where
  name : Option String
  contacts : Contacts
  links : Links
  skills : List String
  experience : List ExperienceEntry
  education : List EducationEntry
  raw_text : String
deriving DecidableEq

/-- Email matches of a text: `re.findall(r"[a-zA-Z0-9._%+-]+@[a-zA-Z0-9.-]+\.[a-zA-Z]...", text)`. -/
def emailMatches (text : String) : List String :=
  (scanAll emailStep text.data.length text.data).map (fun l => ⟨l⟩)

/-- Phone matches of a text: `re.findall(r"\+?\d[\d\-\s]...\d", text)`. -/
def phoneMatches (text : String) : List String :=
  (scanAll phoneStep text.data.length text.data).map (fun l => ⟨l⟩)

/-- Link matches of a text: `re.findall(r"(https?://[^\s|]+|www\.[^\s|]+)", text)`. -/
def linkMatches (text : String) : List String :=
  (scanAll linkStep text.data.length text.data).map (fun l => ⟨l⟩)

namespace nlp_py

/-- nlp_py.clean_text: `re.sub(r"[ \t]+", " ", text).strip()`. -/
def clean_text (text : String) : String := pyStrip ⟨subRuns isHt false text.data⟩

/-- The accumulation loop of nlp_py.split_sections over
`lines + ["END_OF_TEXT"]`. -/
def sectionsAux (headings : List String) :
    List String → Option String → List String → List (String × String) → List (String × String)
  | [], _, _, sections => sections
  | line :: rest, cur, buffer, sections =>
    let norm := pyUpper (pyStrip line)
    let next : Option String := if line = "END_OF_TEXT" then none else some norm
    if norm ∈ headings ∨ line = "END_OF_TEXT" then
      match cur with
      | some h =>
        if h = "" then sectionsAux headings rest next buffer sections
        else sectionsAux headings rest next []
          (dictInsert sections h (pyStrip (pyJoin "\n" buffer)))
      | none => sectionsAux headings rest next buffer sections
    else sectionsAux headings rest cur (buffer ++ [line]) sections

/-- nlp_py.split_sections. -/
def split_sections (text : String) : List (String × String) :=
  sectionsAux (headFindall text) (pySplit '\n' text ++ ["END_OF_TEXT"]) none [] []

/-- nlp_py.extract_name, parameterised by the external NER collaborator
`ents` returning the (text, label) entities of a line. -/
def extract_name (ents : String → List (String × String)) (text : String) : Option String :=
  let lines := (pySplit '\n' text).take 20
  match lines.findSome? (fun line =>
      ((ents line).find? (fun e => e.2 = "PERSON")).map (fun e => e.1)) with
  | some n => some n
  | none => lines.head?

/-- nlp_py.extract_contact_info: email and phone regex matches, internal
whitespace stripped from each phone match. -/
def extract_contact_info (text : String) : Contacts :=
  { email := emailMatches text
    phone := (phoneMatches text).map removeWs }

/-- nlp_py.extract_links.  `others` is `list(set(links) - set(linkedin) -
set(github))`; Python's set iteration order is unspecified, so the set is
modelled as the duplicate-free list of links containing neither substring,
in first-occurrence order. -/
def extract_links (text : String) : Links :=
  let links := linkMatches text
  { linkedin := links.filter (fun l => pyContains "linkedin.com" (pyLower l))
    github := links.filter (fun l => pyContains "github.com" (pyLower l))
    other := (links.filter (fun l =>
        !(pyContains "linkedin.com" (pyLower l)) && !(pyContains "github.com" (pyLower l)))).dedup }

/-- nlp_py.extract_skills, parameterised by the external collaborators:
`tokens` is the spaCy token stream of the text (stop words and punctuation
already discarded) and `score g sk` the cosine similarity of the embeddings
of candidate n-gram `g` and vocabulary entry `sk`.  The guard returns before
either collaborator is consulted when the vocabulary is empty (the
`SKILL_EMBEDDINGS.numel() == 0` test coincides with emptiness of
`SKILLS_DB`). -/
def extract_skills (skillsDB : List String) (tokens : List String)
    (score : String → String → ℚ) : List String :=
  if skillsDB.isEmpty then []
  else
    let ngrams := (List.range 3).flatMap (fun n0 =>
      (List.range (tokens.length + 1 - (n0 + 1))).map (fun i =>
        pyJoin " " ((tokens.drop i).take (n0 + 1))))
    let matched := skillsDB.filter (fun sk => ngrams.any (fun g => decide ((7 : ℚ) / 10 < score g sk)))
    List.insertionSort (fun a b => a ≤ b) ((matched.map (fun s => pyTitle (pyStrip s))).dedup)

/-- nlp_py.parse_experience_block. -/
def parse_experience_block (block : String) : ExperienceEntry :=
  let dates := dateFindAux block.data.length block.data
  let start_date :=
    match dates with
    | [] => none
    | (a, _) :: _ => some (if a = "Present" then "Present" else toString (yearOf a))
  let end_date :=
    match dates with
    | [] => none
    | (_, b) :: _ => some (if b = "Present" then "Present" else toString (yearOf b))
  let lines := pySplit '\n' block
  let role_line := lines.headD ""
  let parts := pySplit ',' role_line
  let role := if role_line.data.contains ',' then some (pyStrip (parts.headD "")) else none
  let company :=
    if role_line.data.contains ',' then
      if 1 < parts.length then some (pyStrip ((parts.drop 1).headD "")) else none
    else none
  { start_date := start_date, end_date := end_date, role := role, company := company
    description := ((lines.drop 1).filter (fun l => pyStrip l ≠ "")).map
      (fun l => pyStrip (pyStripChars "-*• " l)) }

/-- nlp_py.extract_experience. -/
def extract_experience (text : String) : List ExperienceEntry :=
  let sections := split_sections text
  let exp_text := (sections.lookup "EXPERIENCE").getD ""
  let blocks := blockSplit exp_text
  (blocks.filter (fun b => pyStrip b ≠ "")).map parse_experience_block

/-- nlp_py.extract_education. -/
def extract_education (text : String) : List EducationEntry :=
  let sections := split_sections text
  let edu_text := (sections.lookup "EDUCATION").getD ""
  (pySplit '\n' edu_text).filterMap (fun line =>
    match degreeSearch line with
    | some d => some { degree := pyStrip d, institution := pyStrip line }
    | none => none)

/-- The normalisation applied by nlp_py.parse_resume before extraction:
`"\n".join([l.strip() for l in text.split("\n") if l.strip() != ""])`. -/
def normalize_text (raw : String) : String :=
  pyJoin "\n" (((pySplit '\n' raw).map pyStrip).filter (fun l => l ≠ ""))

/-- nlp_py.parse_resume after text recovery (the OCR/PDF collaborator is
outside the core; `raw` is the recovered text), parameterised by the NER,
tokenizer and embedding-similarity collaborators. -/
def parse_resume_core (ents : String → List (String × String))
    (tokenize : String → List String) (skillsDB : List String)
    (score : String → String → ℚ) (raw : String) : ResumeRecord :=
  let text := normalize_text raw
  { name := extract_name ents text
    contacts := extract_contact_info text
    links := extract_links text
    skills := extract_skills skillsDB (tokenize text) score
    experience := extract_experience text
    education := extract_education text
    raw_text := text }

end nlp_py

namespace main_py

/-- main.clean_text: `re.sub(r"\s+", " ", text).strip()`. -/
def clean_text (text : String) : String := pyStrip ⟨subRuns isPyWs false text.data⟩

/-- main.extract_skills, modelled as in nlp_py but without the
canonicalising sort: `list(matched_skills)` of the Python set is modelled as
the duplicate-free list in first-occurrence order. -/
def extract_skills (skillsDB : List String) (tokens : List String)
    (score : String → String → ℚ) : List String :=
  if skillsDB.isEmpty then []
  else
    let ngrams := (List.range 3).flatMap (fun n0 =>
      (List.range (tokens.length + 1 - (n0 + 1))).map (fun i =>
        pyJoin " " ((tokens.drop i).take (n0 + 1))))
    (skillsDB.filter (fun sk => ngrams.any (fun g => decide ((7 : ℚ) / 10 < score g sk)))).dedup

end main_py

/-! ### Basic helper lemmas -/

theorem stringMk_data (s : String) : (⟨s.data⟩ : String) = s := by
  cases s
  rfl

theorem lastSat_some {P : Nat → Bool} : ∀ {n j : Nat}, lastSat P n = some j → j < n ∧ P j = true := by
  intro n
  induction n with
  | zero => intro j h; simp [lastSat] at h
  | succ n ih =>
    intro j h
    rw [lastSat] at h
    by_cases hp : P n = true
    · rw [if_pos hp] at h
      cases h
      exact ⟨Nat.lt_succ_self n, hp⟩
    · rw [if_neg hp] at h
      have := ih h
      exact ⟨Nat.lt_succ_of_lt this.1, this.2⟩

theorem lastSat_none {P : Nat → Bool} : ∀ {n : Nat}, (∀ j, j < n → P j = false) → lastSat P n = none := by
  intro n
  induction n with
  | zero => intro _; rfl
  | succ n ih =>
    intro h
    rw [lastSat, if_neg (by simp [h n (Nat.lt_succ_self n)]), ih]
    intro j hj
    exact h j (Nat.lt_succ_of_lt hj)

theorem lastSat_eq {P : Nat → Bool} : ∀ {n j : Nat}, j < n → P j = true →
    (∀ k, j < k → k < n → P k = false) → lastSat P n = some j := by
  intro n
  induction n with
  | zero => intro j hj; exact absurd hj (Nat.not_lt_zero j)
  | succ n ih =>
    intro j hj hP hrest
    rw [lastSat]
    by_cases hjn : j = n
    · subst hjn
      rw [if_pos hP]
    · have hjlt : j < n := Nat.lt_of_le_of_ne (Nat.le_of_lt_succ hj) hjn
      rw [if_neg (by simp [hrest n hjlt (Nat.lt_succ_self n)])]
      exact ih hjlt hP (fun k h1 h2 => hrest k h1 (Nat.lt_succ_of_lt h2))

theorem takeWhile_append_of_neg {p : Char → Bool} :
    ∀ (l w : List Char), (∃ b ∈ l, p b = false) →
      (l ++ w).takeWhile p = l.takeWhile p := by
  intro l
  induction l with
  | nil => intro w h; simp at h
  | cons a l ih =>
    intro w h
    by_cases pa : p a = true
    · rw [List.cons_append, List.takeWhile_cons_of_pos pa, List.takeWhile_cons_of_pos pa]
      obtain ⟨b, hb, hbp⟩ := h
      rcases List.mem_cons.1 hb with rfl | hb'
      · rw [pa] at hbp; cases hbp
      · rw [ih w ⟨b, hb', hbp⟩]
    · rw [List.cons_append, List.takeWhile_cons_of_neg pa, List.takeWhile_cons_of_neg pa]

theorem dropWhile_append_of_neg {p : Char → Bool} :
    ∀ (l w : List Char), (∃ b ∈ l, p b = false) →
      (l ++ w).dropWhile p = l.dropWhile p ++ w := by
  intro l
  induction l with
  | nil => intro w h; simp at h
  | cons a l ih =>
    intro w h
    by_cases pa : p a = true
    · rw [List.cons_append, List.dropWhile_cons_of_pos pa, List.dropWhile_cons_of_pos pa]
      obtain ⟨b, hb, hbp⟩ := h
      rcases List.mem_cons.1 hb with rfl | hb'
      · rw [pa] at hbp; cases hbp
      · exact ih w ⟨b, hb', hbp⟩
    · rw [List.cons_append, List.dropWhile_cons_of_neg pa, List.dropWhile_cons_of_neg pa,
        List.cons_append]

theorem mem_of_mem_takeWhile {p : Char → Bool} {l : List Char} {c : Char}
    (h : c ∈ l.takeWhile p) : c ∈ l :=
  (List.takeWhile_sublist p).mem h

/-! ### Character class facts -/

theorem upperAZ_toUpper {c : Char} (h : isUpperAZ c = true) : c.toUpper = c := by
  obtain ⟨h1, h2⟩ := (by simpa [isUpperAZ] using h : 'A' ≤ c ∧ c ≤ 'Z')
  simp [Char.le_def, UInt32.le_def, BitVec.le_def] at h1 h2
  unfold Char.toUpper
  rw [if_neg]
  intro hc
  obtain ⟨hc1, hc2⟩ := hc
  have e : c.toNat = c.val.toBitVec.toNat := rfl
  omega

theorem upperAZ_not_pyWs {c : Char} (h : isUpperAZ c = true) : isPyWs c = false := by
  obtain ⟨h1, h2⟩ := (by simpa [isUpperAZ] using h : 'A' ≤ c ∧ c ≤ 'Z')
  simp [Char.le_def, UInt32.le_def, BitVec.le_def] at h1 h2
  simp only [isPyWs, Bool.or_eq_false_iff, beq_eq_false_iff_ne, ne_eq]
  refine ⟨⟨⟨⟨⟨?_, ?_⟩, ?_⟩, ?_⟩, ?_⟩, ?_⟩ <;> rintro rfl <;> simp_all

theorem upperAZ_ne_nl {c : Char} (h : isUpperAZ c = true) : (c == '\n') = false := by
  obtain ⟨h1, h2⟩ := (by simpa [isUpperAZ] using h : 'A' ≤ c ∧ c ≤ 'Z')
  simp [Char.le_def, UInt32.le_def, BitVec.le_def] at h1 h2
  simp only [beq_eq_false_iff_ne, ne_eq]
  rintro rfl
  simp_all

theorem upperAZ_inHead {c : Char} (h : isUpperAZ c = true) : inHeadClass c = true := by
  simp [inHeadClass, h]

theorem inHead_nl : inHeadClass '\n' = true := by decide

theorem dropWhile_eq_self_of_all {p : Char → Bool} :
    ∀ (l : List Char), (∀ c ∈ l, p c = false) → l.dropWhile p = l
  | [], _ => rfl
  | c :: rest, h => by
    have hc : ¬ p c = true := by simp [h c (List.mem_cons_self c rest)]
    rw [List.dropWhile_cons_of_neg hc]

theorem pyStrip_of_no_ws {s : String} (h : ∀ c ∈ s.data, isPyWs c = false) : pyStrip s = s := by
  unfold pyStrip pyStripL dropEndWhile
  rw [dropWhile_eq_self_of_all _ h,
      dropWhile_eq_self_of_all _ (fun c hc => h c (List.mem_reverse.mp hc)),
      List.reverse_reverse]

theorem pyStrip_allUpper {s : String} (h : ∀ c ∈ s.data, isUpperAZ c = true) : pyStrip s = s :=
  pyStrip_of_no_ws (fun c hc => upperAZ_not_pyWs (h c hc))

theorem map_toUpper_of_upper : ∀ (l : List Char), (∀ c ∈ l, isUpperAZ c = true) →
    l.map Char.toUpper = l
  | [], _ => rfl
  | a :: t, h => by
    rw [List.map_cons, upperAZ_toUpper (h a (List.mem_cons_self a t)),
      map_toUpper_of_upper t (fun c hc => h c (List.mem_cons_of_mem a hc))]

theorem pyUpper_allUpper {s : String} (h : ∀ c ∈ s.data, isUpperAZ c = true) : pyUpper s = s := by
  unfold pyUpper
  rw [map_toUpper_of_upper s.data h]

/-! ### Facts about the heading matcher -/

theorem matchHeadingAt_shrink : ∀ {s : List Char} {m r2 : List Char},
    matchHeadingAt s = some (m, r2) → r2.length < s.length := by
  intro s m r2 h
  match s with
  | [] => simp [matchHeadingAt] at h
  | c :: rest =>
    simp only [matchHeadingAt] at h
    by_cases hu : isUpperAZ c = true
    · rw [if_pos hu] at h
      have hlen : (rest.takeWhile inHeadClass).length + (rest.dropWhile inHeadClass).length
          = rest.length := by
        have := congrArg List.length (List.takeWhile_append_dropWhile (p := inHeadClass) (l := rest))
        rw [List.length_append] at this
        exact this
      rcases hk : (if (rest.dropWhile inHeadClass).isEmpty then
            (if 1 ≤ (rest.takeWhile inHeadClass).length then some (rest.takeWhile inHeadClass).length else none)
          else lastSat (fun k => decide (1 ≤ k) &&
            ((rest.takeWhile inHeadClass).get? k == some '\n')) (rest.takeWhile inHeadClass).length) with
        _ | k
      · rw [hk] at h
        cases h
      · rw [hk] at h
        cases h
        simp only [List.length_append, List.length_drop, List.length_cons]
        omega
    · rw [if_neg hu] at h
      cases h

theorem matchHeadingAt_content {x : List Char} (hnC : ∃ b ∈ x, inHeadClass b = false)
    (hnl : '\n' ∉ x) (w : List Char) : matchHeadingAt (x ++ w) = none := by
  match x with
  | [] => simp at hnC
  | c :: t =>
    show matchHeadingAt (c :: (t ++ w)) = none
    by_cases hu : isUpperAZ c = true
    · obtain ⟨b, hb, hbC⟩ := hnC
      have hbt : b ∈ t := by
        rcases List.mem_cons.1 hb with rfl | h'
        · rw [upperAZ_inHead hu] at hbC; cases hbC
        · exact h'
      have hrun : (t ++ w).takeWhile inHeadClass = t.takeWhile inHeadClass :=
        takeWhile_append_of_neg t w ⟨b, hbt, hbC⟩
      have hdw : t.dropWhile inHeadClass ≠ [] := by
        intro hnil
        have := (List.dropWhile_eq_nil_iff.mp hnil) b hbt
        rw [hbC] at this
        cases this
      have htl : (t ++ w).dropWhile inHeadClass = t.dropWhile inHeadClass ++ w :=
        dropWhile_append_of_neg t w ⟨b, hbt, hbC⟩
      have htlne : ((t ++ w).dropWhile inHeadClass).isEmpty = false := by
        rw [htl]
        rcases hc : t.dropWhile inHeadClass with _ | ⟨a, l⟩
        · exact absurd hc hdw
        · rfl
      simp only [matchHeadingAt]
      rw [if_pos hu, htlne]
      simp only [Bool.false_eq_true, if_false]
      have hnone : lastSat (fun k => decide (1 ≤ k) &&
          (((t ++ w).takeWhile inHeadClass).get? k == some '\n'))
          ((t ++ w).takeWhile inHeadClass).length = none := by
        apply lastSat_none
        intro j hj
        rcases hq : ((t ++ w).takeWhile inHeadClass).get? j with _ | a
        · simp [hq]
        · have ha : a ∈ (t ++ w).takeWhile inHeadClass := List.get?_mem hq
          have hat : a ∈ t := by
            rw [hrun] at ha
            exact mem_of_mem_takeWhile ha
          have : a ≠ '\n' := by
            intro hEq
            subst hEq
            exact hnl (List.mem_cons_of_mem c hat)
          simp [hq, this]
      rw [hnone]
    · simp only [matchHeadingAt]
      rw [if_neg hu]

theorem matchHeadingAt_heading {h : List Char} {z : List Char}
    (h2 : 2 ≤ h.length) (hup : ∀ c ∈ h, isUpperAZ c = true)
    (hz1 : '\n' ∉ z.takeWhile inHeadClass) (hz2 : z.dropWhile inHeadClass ≠ []) :
    matchHeadingAt (h ++ '\n' :: z) = some (h, '\n' :: z) := by
  obtain ⟨c, t, rfl⟩ : ∃ c t, h = c :: t := by
    cases h with
    | nil => simp at h2
    | cons c t => exact ⟨c, t, rfl⟩
  · have hu : isUpperAZ c = true := hup c (List.mem_cons_self c t)
    have htC : ∀ x ∈ t, inHeadClass x = true := fun x hx =>
      upperAZ_inHead (hup x (List.mem_cons_of_mem c hx))
    have ht1 : 1 ≤ t.length := by
      have h2' : 2 ≤ t.length + 1 := by simpa using h2
      omega
    show matchHeadingAt (c :: (t ++ '\n' :: z)) = _
    have hrun : (t ++ '\n' :: z).takeWhile inHeadClass
        = t ++ '\n' :: z.takeWhile inHeadClass := by
      rw [List.takeWhile_append_of_pos htC, List.takeWhile_cons_of_pos inHead_nl]
    have htl : (t ++ '\n' :: z).dropWhile inHeadClass = z.dropWhile inHeadClass := by
      rw [List.dropWhile_append_of_pos htC, List.dropWhile_cons_of_pos inHead_nl]
    have htlne : (z.dropWhile inHeadClass).isEmpty = false := by
      rcases hc : z.dropWhile inHeadClass with _ | ⟨a, l⟩
      · exact absurd hc hz2
      · rfl
    simp only [matchHeadingAt]
    rw [if_pos hu, hrun, htl, htlne]
    simp only [Bool.false_eq_true, if_false]
    have hksome : lastSat (fun k => decide (1 ≤ k) &&
        ((t ++ '\n' :: z.takeWhile inHeadClass).get? k == some '\n'))
        (t ++ '\n' :: z.takeWhile inHeadClass).length = some t.length := by
      apply lastSat_eq
      · simp only [List.length_append, List.length_cons]
        omega
      · have hget : (t ++ '\n' :: z.takeWhile inHeadClass).get? t.length = some '\n' := by
          rw [List.get?_append_right (Nat.le_refl t.length), Nat.sub_self]
          rfl
        rw [hget]
        simp [ht1]
      · intro k hk1 hk2
        have hkk : t.length + 1 ≤ k := hk1
        rcases hq : (t ++ '\n' :: z.takeWhile inHeadClass).get? k with _ | a
        · simp [hq]
        · have hmem : a ∈ z.takeWhile inHeadClass := by
            rw [List.get?_append_right (by omega)] at hq
            rcases hd : k - t.length with _ | d
            · omega
            · rw [hd] at hq
              simp only [List.get?_cons_succ] at hq
              exact List.get?_mem hq
          have hane : a ≠ '\n' := fun hEq => hz1 (hEq ▸ hmem)
          simp [hq, hane]
    rw [hksome]
    show some (c :: (t ++ '\n' :: z.takeWhile inHeadClass).take t.length,
        (t ++ '\n' :: z.takeWhile inHeadClass).drop t.length ++ z.dropWhile inHeadClass)
      = some (c :: t, '\n' :: z)
    rw [List.take_left, List.drop_left, List.cons_append,
      List.takeWhile_append_dropWhile]

/-! ### The heading findall at canonical fuel -/

/-- headFindAux with fuel equal to the length of the remaining text. -/
def findallF (s : List Char) (b : Bool) : List String := headFindAux s.length s b

theorem headFindAux_nil (fuel : Nat) (b : Bool) : headFindAux fuel [] b = [] := by
  cases fuel <;> rfl

theorem headFindAux_congr : ∀ (fuel fuel' : Nat) (s : List Char) (b : Bool),
    s.length ≤ fuel → s.length ≤ fuel' →
    headFindAux fuel s b = headFindAux fuel' s b := by
  intro fuel
  induction fuel with
  | zero =>
    intro fuel' s b h1 _
    have hs : s = [] := List.length_eq_zero.mp (Nat.le_zero.mp h1)
    subst hs
    rw [headFindAux_nil, headFindAux_nil]
  | succ f ih =>
    intro fuel' s b h1 h2
    match s with
    | [] => rw [headFindAux_nil, headFindAux_nil]
    | c :: rest =>
      have hr : rest.length ≤ f := by
        simp only [List.length_cons] at h1
        omega
      match fuel' with
      | 0 =>
        exfalso
        simp at h2
      | f' + 1 =>
        have hr' : rest.length ≤ f' := by
          simp only [List.length_cons] at h2
          omega
        simp only [headFindAux]
        cases b with
        | false =>
          simp only [Bool.false_eq_true, if_false]
          exact ih f' rest (c == '\n') hr hr'
        | true =>
          simp only [if_true]
          cases hm : matchHeadingAt (c :: rest) with
          | none =>
            show headFindAux f rest (c == '\n') = headFindAux f' rest (c == '\n')
            exact ih f' rest (c == '\n') hr hr'
          | some p =>
            obtain ⟨m, r2⟩ := p
            have hshr : r2.length ≤ rest.length := by
              have := matchHeadingAt_shrink hm
              simp only [List.length_cons] at this
              omega
            show (⟨m⟩ : String) :: headFindAux f r2 false
                = (⟨m⟩ : String) :: headFindAux f' r2 false
            rw [ih f' r2 false (le_trans hshr hr) (le_trans hshr hr')]

theorem findallF_nil (b : Bool) : findallF [] b = [] := rfl

theorem findallF_false (c : Char) (rest : List Char) :
    findallF (c :: rest) false = findallF rest (c == '\n') := by
  show headFindAux (rest.length + 1) (c :: rest) false = _
  simp only [headFindAux, Bool.false_eq_true, if_false]
  rfl

theorem findallF_true_none {c : Char} {rest : List Char}
    (hm : matchHeadingAt (c :: rest) = none) :
    findallF (c :: rest) true = findallF rest (c == '\n') := by
  show headFindAux (rest.length + 1) (c :: rest) true = _
  simp only [headFindAux, if_true]
  rw [hm]
  rfl

theorem findallF_true_some : ∀ {s m r2 : List Char},
    matchHeadingAt s = some (m, r2) →
    findallF s true = (⟨m⟩ : String) :: findallF r2 false := by
  intro s m r2 hm
  match s with
  | [] => simp [matchHeadingAt] at hm
  | c :: rest =>
    show headFindAux (rest.length + 1) (c :: rest) true = _
    simp only [headFindAux, if_true]
    rw [hm]
    have hshr : r2.length ≤ rest.length := by
      have := matchHeadingAt_shrink hm
      simp only [List.length_cons] at this
      omega
    show (⟨m⟩ : String) :: headFindAux rest.length r2 false = _
    rw [headFindAux_congr rest.length r2.length r2 false hshr (Nat.le_refl _)]
    rfl

theorem findallF_skip : ∀ (l z : List Char), '\n' ∉ l →
    findallF (l ++ '\n' :: z) false = findallF z true := by
  intro l
  induction l with
  | nil =>
    intro z _
    rw [List.nil_append, findallF_false]
    simp
  | cons c l ih =>
    intro z hnl
    rw [List.cons_append, findallF_false]
    have hc : (c == '\n') = false := by
      simp only [beq_eq_false_iff_ne, ne_eq]
      intro hEq
      exact hnl (hEq ▸ List.mem_cons_self c l)
    rw [hc]
    exact ih z (fun hm => hnl (List.mem_cons_of_mem c hm))

theorem findallF_false_nil : ∀ (l : List Char), '\n' ∉ l → findallF l false = [] := by
  intro l
  induction l with
  | nil => intro _; rfl
  | cons c l ih =>
    intro hnl
    rw [findallF_false]
    have hc : (c == '\n') = false := by
      simp only [beq_eq_false_iff_ne, ne_eq]
      intro hEq
      exact hnl (hEq ▸ List.mem_cons_self c l)
    rw [hc]
    exact ih (fun hm => hnl (List.mem_cons_of_mem c hm))

theorem findallF_content_cons {x : List Char} (hnC : ∃ b ∈ x, inHeadClass b = false)
    (hnl : '\n' ∉ x) (z : List Char) :
    findallF (x ++ '\n' :: z) true = findallF z true := by
  match x with
  | [] => simp at hnC
  | c :: t =>
    have hm : matchHeadingAt (c :: (t ++ '\n' :: z)) = none := by
      rw [← List.cons_append]
      exact matchHeadingAt_content hnC hnl ('\n' :: z)
    rw [List.cons_append, findallF_true_none hm]
    have hc : (c == '\n') = false := by
      simp only [beq_eq_false_iff_ne, ne_eq]
      intro hEq
      exact hnl (hEq ▸ List.mem_cons_self c t)
    rw [hc]
    exact findallF_skip t z (fun hm' => hnl (List.mem_cons_of_mem c hm'))

theorem findallF_content_end {x : List Char} (hnC : ∃ b ∈ x, inHeadClass b = false)
    (hnl : '\n' ∉ x) : findallF x true = [] := by
  match x with
  | [] => simp at hnC
  | c :: t =>
    have hm : matchHeadingAt (c :: t) = none := by
      have := matchHeadingAt_content hnC hnl []
      rwa [List.append_nil] at this
    rw [findallF_true_none hm]
    have hc : (c == '\n') = false := by
      simp only [beq_eq_false_iff_ne, ne_eq]
      intro hEq
      exact hnl (hEq ▸ List.mem_cons_self c t)
    rw [hc]
    exact findallF_false_nil t (fun hm' => hnl (List.mem_cons_of_mem c hm'))

theorem content_take_drop {x : List Char} (hnC : ∃ b ∈ x, inHeadClass b = false)
    (hnl : '\n' ∉ x) (w : List Char) :
    '\n' ∉ (x ++ w).takeWhile inHeadClass ∧ (x ++ w).dropWhile inHeadClass ≠ [] := by
  obtain ⟨b, hb, hbC⟩ := hnC
  constructor
  · rw [takeWhile_append_of_neg x w ⟨b, hb, hbC⟩]
    intro hmem
    exact hnl (mem_of_mem_takeWhile hmem)
  · rw [dropWhile_append_of_neg x w ⟨b, hb, hbC⟩]
    intro hnil
    have hd := List.append_eq_nil.mp hnil
    have := List.dropWhile_eq_nil_iff.mp hd.1 b hb
    rw [hbC] at this
    cases this

/-- A content line for the section splitter: it contains at least one
character outside the heading character class and no newline. -/
def ContentLine (x : String) : Prop :=
  (∃ b ∈ x.data, inHeadClass b = false) ∧ '\n' ∉ x.data

instance (x : String) : Decidable (ContentLine x) := by
  unfold ContentLine
  infer_instance

theorem findallF_contentRun : ∀ (ls : List String) (z : List Char),
    (∀ x ∈ ls, ContentLine x) →
    findallF (ls.foldr (fun x acc => x.data ++ '\n' :: acc) z) true = findallF z true := by
  intro ls
  induction ls with
  | nil => intro z _; rfl
  | cons x ls ih =>
    intro z hgood
    show findallF (x.data ++ '\n' :: ls.foldr (fun x acc => x.data ++ '\n' :: acc) z) true = _
    obtain ⟨h1, h2⟩ := hgood x (List.mem_cons_self x ls)
    rw [findallF_content_cons h1 h2]
    exact ih z (fun y hy => hgood y (List.mem_cons_of_mem x hy))

theorem pyJoin_cons (x y : String) (t : List String) :
    (pyJoin "\n" (x :: y :: t)).data = x.data ++ '\n' :: (pyJoin "\n" (y :: t)).data := by
  show (x ++ "\n" ++ pyJoin "\n" (y :: t)).data = _
  rw [String.data_append, String.data_append, List.append_assoc]
  rfl

theorem pyJoin_decomp : ∀ (ls rest : List String), rest ≠ [] →
    (pyJoin "\n" (ls ++ rest)).data
      = ls.foldr (fun x acc => x.data ++ '\n' :: acc) (pyJoin "\n" rest).data := by
  intro ls
  induction ls with
  | nil => intro rest _; rfl
  | cons x ls ih =>
    intro rest hr
    obtain ⟨y, t, hyt⟩ : ∃ y t, ls ++ rest = y :: t := by
      cases hls : ls ++ rest with
      | nil => exact absurd (List.append_eq_nil.mp hls).2 hr
      | cons y t => exact ⟨y, t, rfl⟩
    show (pyJoin "\n" (x :: (ls ++ rest))).data = _
    rw [hyt, pyJoin_cons, ← hyt, ih rest hr]
    rfl

theorem findallF_contentAll : ∀ (ls : List String), ls ≠ [] → (∀ x ∈ ls, ContentLine x) →
    findallF (pyJoin "\n" ls).data true = [] := by
  intro ls
  induction ls with
  | nil => intro h _; exact absurd rfl h
  | cons x ls ih =>
    intro _ hgood
    obtain ⟨h1, h2⟩ := hgood x (List.mem_cons_self x ls)
    cases ls with
    | nil => exact findallF_content_end h1 h2
    | cons y t =>
      rw [pyJoin_cons, findallF_content_cons h1 h2]
      exact ih (by simp) (fun u hu => hgood u (List.mem_cons_of_mem x hu))

theorem findallF_heading_block {h : String} {z : List Char}
    (h2 : 2 ≤ h.data.length) (hup : ∀ c ∈ h.data, isUpperAZ c = true)
    (hz1 : '\n' ∉ z.takeWhile inHeadClass) (hz2 : z.dropWhile inHeadClass ≠ []) :
    findallF (h.data ++ '\n' :: z) true = h :: findallF z true := by
  rw [findallF_true_some (matchHeadingAt_heading h2 hup hz1 hz2), stringMk_data]
  have : findallF ('\n' :: z) false = findallF z true := by
    rw [findallF_false]
    simp
  rw [this]

/-! ### Splitting joined lines -/

theorem splitCharL_no_sep : ∀ (l : List Char), '\n' ∉ l → splitCharL '\n' l = [l] := by
  intro l
  induction l with
  | nil => intro _; rfl
  | cons c rest ih =>
    intro h
    have hc : (c == '\n') = false := by
      simp only [beq_eq_false_iff_ne, ne_eq]
      intro hEq
      exact h (hEq ▸ List.mem_cons_self c rest)
    have hr := ih (fun hm => h (List.mem_cons_of_mem c hm))
    simp only [splitCharL, hc, Bool.false_eq_true, if_false, hr]

theorem splitCharL_sep : ∀ (l z : List Char), '\n' ∉ l →
    splitCharL '\n' (l ++ '\n' :: z) = l :: splitCharL '\n' z := by
  intro l
  induction l with
  | nil =>
    intro z _
    simp only [List.nil_append, splitCharL, beq_self_eq_true, if_true]
  | cons c rest ih =>
    intro z h
    have hc : (c == '\n') = false := by
      simp only [beq_eq_false_iff_ne, ne_eq]
      intro hEq
      exact h (hEq ▸ List.mem_cons_self c rest)
    have hr := ih z (fun hm => h (List.mem_cons_of_mem c hm))
    simp only [List.cons_append, splitCharL, hc, Bool.false_eq_true, if_false,
      List.append_eq, hr]

theorem pySplit_join : ∀ (ls : List String), ls ≠ [] → (∀ x ∈ ls, '\n' ∉ x.data) →
    pySplit '\n' (pyJoin "\n" ls) = ls := by
  intro ls
  induction ls with
  | nil => intro h _; exact absurd rfl h
  | cons x ls ih =>
    intro _ h
    have hx : '\n' ∉ x.data := h x (List.mem_cons_self x ls)
    cases ls with
    | nil =>
      show (splitCharL '\n' x.data).map (fun l => (⟨l⟩ : String)) = [x]
      rw [splitCharL_no_sep x.data hx]
      simp [stringMk_data]
    | cons y t =>
      show (splitCharL '\n' (pyJoin "\n" (x :: y :: t)).data).map (fun l => (⟨l⟩ : String))
        = x :: y :: t
      rw [pyJoin_cons, splitCharL_sep _ _ hx, List.map_cons, stringMk_data]
      have := ih (by simp) (fun u hu => h u (List.mem_cons_of_mem x hu))
      rw [show (splitCharL '\n' (pyJoin "\n" (y :: t)).data).map (fun l => (⟨l⟩ : String))
        = pySplit '\n' (pyJoin "\n" (y :: t)) from rfl, this]

/-! ### The sections accumulation loop -/

theorem sectionsAux_cons (hl : List String) (line : String) (rest : List String)
    (cur : Option String) (buf : List String) (secs : List (String × String)) :
    nlp_py.sectionsAux hl (line :: rest) cur buf secs =
      (if pyUpper (pyStrip line) ∈ hl ∨ line = "END_OF_TEXT" then
        match cur with
        | some h =>
          if h = "" then
            nlp_py.sectionsAux hl rest
              (if line = "END_OF_TEXT" then none else some (pyUpper (pyStrip line))) buf secs
          else
            nlp_py.sectionsAux hl rest
              (if line = "END_OF_TEXT" then none else some (pyUpper (pyStrip line))) []
              (dictInsert secs h (pyStrip (pyJoin "\n" buf)))
        | none =>
          nlp_py.sectionsAux hl rest
            (if line = "END_OF_TEXT" then none else some (pyUpper (pyStrip line))) buf secs
      else nlp_py.sectionsAux hl rest cur (buf ++ [line]) secs) := rfl

theorem sectionsAux_content (hl : List String) :
    ∀ (xs rest : List String) (cur : Option String) (buf : List String)
      (secs : List (String × String)),
      (∀ x ∈ xs, pyUpper (pyStrip x) ∉ hl ∧ x ≠ "END_OF_TEXT") →
      nlp_py.sectionsAux hl (xs ++ rest) cur buf secs
        = nlp_py.sectionsAux hl rest cur (buf ++ xs) secs := by
  intro xs
  induction xs with
  | nil =>
    intro rest cur buf secs _
    rw [List.nil_append, List.append_nil]
  | cons x xs ih =>
    intro rest cur buf secs h
    obtain ⟨h1, h2⟩ := h x (List.mem_cons_self x xs)
    show nlp_py.sectionsAux hl (x :: (xs ++ rest)) cur buf secs = _
    rw [sectionsAux_cons]
    rw [if_neg (by
      intro hor
      rcases hor with hmem | hEq
      · exact h1 hmem
      · exact h2 hEq)]
    rw [ih rest cur (buf ++ [x]) secs (fun u hu => h u (List.mem_cons_of_mem x hu))]
    rw [List.append_assoc]
    rfl

/-! ### Heading lines and the findall of structured texts -/

/-- A heading-shaped line: at least two characters, all uppercase `A`-`Z`. -/
def HeadingLine (h : String) : Prop :=
  2 ≤ h.data.length ∧ ∀ c ∈ h.data, isUpperAZ c = true

instance (h : String) : Decidable (HeadingLine h) := by
  unfold HeadingLine
  infer_instance

theorem HeadingLine.no_nl {h : String} (hh : HeadingLine h) : '\n' ∉ h.data := by
  intro hmem
  exact absurd (hh.2 '\n' hmem) (by decide)

theorem HeadingLine.ne_end {h : String} (hh : HeadingLine h) : h ≠ "END_OF_TEXT" := by
  intro hEq
  subst hEq
  exact absurd (hh.2 '_' (by decide)) (by decide)

theorem HeadingLine.ne_empty {h : String} (hh : HeadingLine h) : h ≠ "" := by
  intro hEq
  subst hEq
  exact absurd hh.1 (by decide)

theorem HeadingLine.norm {h : String} (hh : HeadingLine h) : pyUpper (pyStrip h) = h := by
  rw [pyStrip_allUpper hh.2, pyUpper_allUpper hh.2]

theorem firstline_conds (x : String) (rest : List String) (hx : ContentLine x) :
    '\n' ∉ ((pyJoin "\n" (x :: rest)).data).takeWhile inHeadClass
      ∧ ((pyJoin "\n" (x :: rest)).data).dropWhile inHeadClass ≠ [] := by
  obtain ⟨h1, h2⟩ := hx
  cases rest with
  | nil =>
    have := content_take_drop h1 h2 []
    rw [List.append_nil] at this
    exact this
  | cons y t =>
    rw [pyJoin_cons]
    exact content_take_drop h1 h2 ('\n' :: (pyJoin "\n" (y :: t)).data)

theorem headFindall_single (h : String) (pre post : List String)
    (hh : HeadingLine h) (hpost : post ≠ [])
    (hgood : ∀ x ∈ pre ++ post, ContentLine x) :
    headFindall (pyJoin "\n" (pre ++ h :: post)) = [h] := by
  show findallF (pyJoin "\n" (pre ++ h :: post)).data true = [h]
  rw [pyJoin_decomp pre (h :: post) (by simp)]
  rw [findallF_contentRun pre _ (fun x hx => hgood x (List.mem_append_left post hx))]
  obtain ⟨p, post', rfl⟩ : ∃ p post', post = p :: post' := by
    cases post with
    | nil => exact absurd rfl hpost
    | cons p post' => exact ⟨p, post', rfl⟩
  rw [pyJoin_cons]
  have hfl := firstline_conds p post'
    (hgood p (List.mem_append_right pre (List.mem_cons_self p post')))
  rw [findallF_heading_block hh.1 hh.2 hfl.1 hfl.2]
  rw [findallF_contentAll (p :: post') (by simp)
    (fun x hx => hgood x (List.mem_append_right pre hx))]

/-! ### Claim C1 -/

/-- C1, counterexample: in `split_sections "intro\nEXPERIENCE\nwork"` the line
`intro` precedes the first (and only) detected heading, yet it is not
discarded: it appears as a line of the value stored under the key
`EXPERIENCE`. -/
theorem claim_C1_counterexample :
    nlp_py.split_sections "intro\nEXPERIENCE\nwork"
        = [("EXPERIENCE", "intro\nwork")]
      ∧ "intro" ∈ pySplit '\n' "intro\nwork" := by
  decide

/-- C1, amended: split_sections does not discard the lines before the first
detected heading.  For a text made of well-formed content lines around a
single heading line, the pre-heading lines stay in the accumulation buffer
(which is only reset when a section is closed) and end up, in front of the
in-section lines, in the value stored for the first heading. -/
theorem claim_C1_amended (h : String) (pre post : List String)
    (hh : HeadingLine h) (hpre : pre ≠ []) (hpost : post ≠ [])
    (hgood : ∀ x ∈ pre ++ post,
      ContentLine x ∧ pyUpper (pyStrip x) ≠ h ∧ x ≠ "END_OF_TEXT") :
    nlp_py.split_sections (pyJoin "\n" (pre ++ h :: post))
      = [(h, pyStrip (pyJoin "\n" (pre ++ post)))] := by
  have hcontent : ∀ x ∈ pre ++ post, ContentLine x := fun x hx => (hgood x hx).1
  have hheads : headFindall (pyJoin "\n" (pre ++ h :: post)) = [h] :=
    headFindall_single h pre post hh hpost hcontent
  have hlines : pySplit '\n' (pyJoin "\n" (pre ++ h :: post)) = pre ++ h :: post := by
    apply pySplit_join
    · simp
    · intro x hx
      rcases List.mem_append.1 hx with hx1 | hx2
      · exact ((hgood x (List.mem_append_left post hx1)).1).2
      · rcases List.mem_cons.1 hx2 with rfl | hx3
        · exact hh.no_nl
        · exact ((hgood x (List.mem_append_right pre hx3)).1).2
  unfold nlp_py.split_sections
  rw [hheads, hlines]
  have hrearr : (pre ++ h :: post) ++ ["END_OF_TEXT"]
      = pre ++ (h :: (post ++ ["END_OF_TEXT"])) := by
    simp
  rw [hrearr]
  rw [sectionsAux_content [h] pre _ none [] [] (by
    intro x hx
    obtain ⟨_, hne, hnend⟩ := hgood x (List.mem_append_left post hx)
    exact ⟨by simp [hne], hnend⟩)]
  rw [sectionsAux_cons]
  rw [if_pos (Or.inl (by simp [hh.norm]))]
  show nlp_py.sectionsAux [h] (post ++ ["END_OF_TEXT"])
      (if h = "END_OF_TEXT" then none else some (pyUpper (pyStrip h))) ([] ++ pre) [] = _
  rw [if_neg hh.ne_end, hh.norm, List.nil_append]
  rw [sectionsAux_content [h] post _ (some h) pre [] (by
    intro x hx
    obtain ⟨_, hne, hnend⟩ := hgood x (List.mem_append_right pre hx)
    exact ⟨by simp [hne], hnend⟩)]
  rw [sectionsAux_cons]
  rw [if_pos (Or.inr rfl)]
  show (if h = "" then
      nlp_py.sectionsAux [h] []
        (if ("END_OF_TEXT" : String) = "END_OF_TEXT" then none
          else some (pyUpper (pyStrip "END_OF_TEXT"))) (pre ++ post) []
    else
      nlp_py.sectionsAux [h] []
        (if ("END_OF_TEXT" : String) = "END_OF_TEXT" then none
          else some (pyUpper (pyStrip "END_OF_TEXT"))) []
        (dictInsert [] h (pyStrip (pyJoin "\n" (pre ++ post))))) = _
  rw [if_neg hh.ne_empty]
  rfl

/-- C1, witness for the amended claim at a concrete input. -/
theorem claim_C1_amended_witness :
    nlp_py.split_sections (pyJoin "\n" (["intro"] ++ "EXPERIENCE" :: ["work"]))
      = [("EXPERIENCE", pyStrip (pyJoin "\n" (["intro"] ++ ["work"])))] :=
  claim_C1_amended "EXPERIENCE" ["intro"] ["work"]
    (by decide) (by decide) (by decide) (by decide)

/-! ### Claim C5 -/

theorem headFindall_two (h1 h2 : String) (xs ys : List String)
    (hh1 : HeadingLine h1) (hh2 : HeadingLine h2) (hxs : xs ≠ []) (hys : ys ≠ [])
    (hgood : ∀ x ∈ xs ++ ys, ContentLine x) :
    headFindall (pyJoin "\n" (h1 :: (xs ++ h2 :: ys))) = [h1, h2] := by
  obtain ⟨x1, xs', rfl⟩ : ∃ x1 xs', xs = x1 :: xs' := by
    cases xs with
    | nil => exact absurd rfl hxs
    | cons x1 xs' => exact ⟨x1, xs', rfl⟩
  obtain ⟨y1, ys', rfl⟩ : ∃ y1 ys', ys = y1 :: ys' := by
    cases ys with
    | nil => exact absurd rfl hys
    | cons y1 ys' => exact ⟨y1, ys', rfl⟩
  show findallF (pyJoin "\n" (h1 :: x1 :: (xs' ++ h2 :: y1 :: ys'))).data true = [h1, h2]
  rw [pyJoin_cons]
  have hfl1 := firstline_conds x1 (xs' ++ h2 :: y1 :: ys')
    (hgood x1 (List.mem_append_left _ (List.mem_cons_self x1 xs')))
  rw [findallF_heading_block hh1.1 hh1.2 hfl1.1 hfl1.2]
  rw [show x1 :: (xs' ++ h2 :: y1 :: ys') = (x1 :: xs') ++ (h2 :: y1 :: ys') from rfl]
  rw [pyJoin_decomp (x1 :: xs') (h2 :: y1 :: ys') (by simp)]
  rw [findallF_contentRun (x1 :: xs') _
    (fun x hx => hgood x (List.mem_append_left _ hx))]
  rw [pyJoin_cons]
  have hfl2 := firstline_conds y1 ys'
    (hgood y1 (List.mem_append_right _ (List.mem_cons_self y1 ys')))
  rw [findallF_heading_block hh2.1 hh2.2 hfl2.1 hfl2.2]
  rw [findallF_contentAll (y1 :: ys') (by simp)
    (fun x hx => hgood x (List.mem_append_right _ hx))]

/-- C5, counterexample: the text has heading line `EXPERIENCE`, then the
non-heading line `experience` (lowercase, hence not matched by the heading
regex, as the second conjunct records), then heading line `EDUCATION`, then
`bar` — but the value of `EXPERIENCE` is the empty string rather than the
line between the two headings: the loop upper-cases every line before
comparing it with the detected headings, so `experience` acts as a section
boundary. -/
theorem claim_C5_counterexample :
    nlp_py.split_sections "EXPERIENCE\nexperience\nEDUCATION\nbar"
        = [("EXPERIENCE", ""), ("EDUCATION", "bar")]
      ∧ headFindall "EXPERIENCE\nexperience\nEDUCATION\nbar"
        = ["EXPERIENCE", "EDUCATION"] := by
  decide

/-- C5, amended: for a text consisting of the heading line `EXPERIENCE`,
then content lines, then the heading line `EDUCATION`, then content lines —
where a content line contains a character outside the heading class, no
newline, does not case-fold to either heading, and is not the literal
`END_OF_TEXT` — split_sections returns exactly the two keys, each mapped to
the newline-join of the lines strictly between its heading and the next
heading (or the end of text), with outer whitespace stripped. -/
theorem claim_C5_amended (xs ys : List String) (hxs : xs ≠ []) (hys : ys ≠ [])
    (hgood : ∀ x ∈ xs ++ ys, ContentLine x ∧ pyUpper (pyStrip x) ≠ "EXPERIENCE"
      ∧ pyUpper (pyStrip x) ≠ "EDUCATION" ∧ x ≠ "END_OF_TEXT") :
    nlp_py.split_sections
        (pyJoin "\n" ("EXPERIENCE" :: (xs ++ "EDUCATION" :: ys)))
      = [("EXPERIENCE", pyStrip (pyJoin "\n" xs)),
         ("EDUCATION", pyStrip (pyJoin "\n" ys))] := by
  have hhE : HeadingLine "EXPERIENCE" := by decide
  have hhD : HeadingLine "EDUCATION" := by decide
  have hnE : pyUpper (pyStrip "EXPERIENCE") = "EXPERIENCE" := by decide
  have hnD : pyUpper (pyStrip "EDUCATION") = "EDUCATION" := by decide
  have hheads := headFindall_two "EXPERIENCE" "EDUCATION" xs ys hhE hhD hxs hys
    (fun x hx => (hgood x hx).1)
  have hlines : pySplit '\n' (pyJoin "\n" ("EXPERIENCE" :: (xs ++ "EDUCATION" :: ys)))
      = "EXPERIENCE" :: (xs ++ "EDUCATION" :: ys) := by
    apply pySplit_join
    · simp
    · intro x hx
      rcases List.mem_cons.1 hx with rfl | hx2
      · exact hhE.no_nl
      · rcases List.mem_append.1 hx2 with hx3 | hx4
        · exact ((hgood x (List.mem_append_left ys hx3)).1).2
        · rcases List.mem_cons.1 hx4 with rfl | hx5
          · exact hhD.no_nl
          · exact ((hgood x (List.mem_append_right xs hx5)).1).2
  unfold nlp_py.split_sections
  rw [hheads, hlines]
  rw [show ("EXPERIENCE" :: (xs ++ "EDUCATION" :: ys)) ++ ["END_OF_TEXT"]
      = "EXPERIENCE" :: (xs ++ ("EDUCATION" :: (ys ++ ["END_OF_TEXT"]))) from by simp]
  rw [sectionsAux_cons]
  rw [if_pos (Or.inl (by rw [hnE]; exact List.mem_cons_self _ _))]
  show nlp_py.sectionsAux ["EXPERIENCE", "EDUCATION"]
      (xs ++ ("EDUCATION" :: (ys ++ ["END_OF_TEXT"])))
      (if ("EXPERIENCE" : String) = "END_OF_TEXT" then none
        else some (pyUpper (pyStrip "EXPERIENCE"))) [] [] = _
  rw [if_neg (by decide), hnE]
  rw [sectionsAux_content _ xs _ _ [] [] (by
    intro x hx
    obtain ⟨_, hne1, hne2, hnend⟩ := hgood x (List.mem_append_left ys hx)
    refine ⟨?_, hnend⟩
    intro hmem
    rcases List.mem_cons.1 hmem with hEq | hmem2
    · exact hne1 hEq
    · rcases List.mem_cons.1 hmem2 with hEq | hmem3
      · exact hne2 hEq
      · simp at hmem3)]
  rw [sectionsAux_cons]
  rw [if_pos (Or.inl (by rw [hnD]; exact List.mem_cons_of_mem _ (List.mem_cons_self _ _)))]
  show (if ("EXPERIENCE" : String) = "" then
      nlp_py.sectionsAux ["EXPERIENCE", "EDUCATION"] (ys ++ ["END_OF_TEXT"])
        (if ("EDUCATION" : String) = "END_OF_TEXT" then none
          else some (pyUpper (pyStrip "EDUCATION"))) ([] ++ xs) []
    else
      nlp_py.sectionsAux ["EXPERIENCE", "EDUCATION"] (ys ++ ["END_OF_TEXT"])
        (if ("EDUCATION" : String) = "END_OF_TEXT" then none
          else some (pyUpper (pyStrip "EDUCATION"))) []
        (dictInsert [] "EXPERIENCE" (pyStrip (pyJoin "\n" ([] ++ xs))))) = _
  rw [if_neg (by decide), if_neg (by decide), hnD, List.nil_append]
  rw [sectionsAux_content _ ys _ _ [] _ (by
    intro x hx
    obtain ⟨_, hne1, hne2, hnend⟩ := hgood x (List.mem_append_right xs hx)
    refine ⟨?_, hnend⟩
    intro hmem
    rcases List.mem_cons.1 hmem with hEq | hmem2
    · exact hne1 hEq
    · rcases List.mem_cons.1 hmem2 with hEq | hmem3
      · exact hne2 hEq
      · simp at hmem3)]
  rw [sectionsAux_cons]
  rw [if_pos (Or.inr rfl)]
  show (if ("EDUCATION" : String) = "" then
      nlp_py.sectionsAux ["EXPERIENCE", "EDUCATION"] []
        (if ("END_OF_TEXT" : String) = "END_OF_TEXT" then none
          else some (pyUpper (pyStrip "END_OF_TEXT"))) ([] ++ ys)
        (dictInsert [] "EXPERIENCE" (pyStrip (pyJoin "\n" xs)))
    else
      nlp_py.sectionsAux ["EXPERIENCE", "EDUCATION"] []
        (if ("END_OF_TEXT" : String) = "END_OF_TEXT" then none
          else some (pyUpper (pyStrip "END_OF_TEXT"))) []
        (dictInsert (dictInsert [] "EXPERIENCE" (pyStrip (pyJoin "\n" xs)))
          "EDUCATION" (pyStrip (pyJoin "\n" ([] ++ ys))))) = _
  rw [if_neg (by decide), List.nil_append]
  show dictInsert (dictInsert [] "EXPERIENCE" (pyStrip (pyJoin "\n" xs)))
      "EDUCATION" (pyStrip (pyJoin "\n" ys)) = _
  simp only [dictInsert]
  rw [if_neg (by decide)]

/-- C5, witness for the amended claim at a concrete input. -/
theorem claim_C5_amended_witness :
    nlp_py.split_sections
        (pyJoin "\n" ("EXPERIENCE" :: (["foo"] ++ "EDUCATION" :: ["bar"])))
      = [("EXPERIENCE", pyStrip (pyJoin "\n" ["foo"])),
         ("EDUCATION", pyStrip (pyJoin "\n" ["bar"]))] :=
  claim_C5_amended ["foo"] ["bar"] (by decide) (by decide) (by decide)

/-! ### Claim C2 -/

/-- C2, counterexample: on the block `Engineer, Acme` / `Jan 2020 - Present` /
`- built X`, the description produced by parse_experience_block is not the
single bullet `built X`: the date line is part of `lines[1:]` and is kept. -/
theorem claim_C2_counterexample :
    (nlp_py.parse_experience_block
        "Engineer, Acme\nJan 2020 - Present\n- built X").description
      ≠ ["built X"] := by
  decide

/-- C2, amended: on that block parse_experience_block yields role `Engineer`,
company `Acme`, start year `2020`, end period `Present`, and a description
of exactly two entries: the date line `Jan 2020 - Present` (which is not
removed) and the stripped bullet `built X`. -/
theorem claim_C2_amended :
    nlp_py.parse_experience_block "Engineer, Acme\nJan 2020 - Present\n- built X"
      = { start_date := some "2020", end_date := some "Present",
          role := some "Engineer", company := some "Acme",
          description := ["Jan 2020 - Present", "built X"] } := by
  decide

/-! ### Claim C3 -/

/-- C3, evaluation at the failing input: the main.py variant of the text
normalizer replaces the newline of `A\nB` by a space, merging the two
non-empty lines into one (so downstream line-oriented extractors see a
single line), while the nlp_py variant preserves the line break. -/
theorem claim_C3_code_bug_eval :
    main_py.clean_text "A\nB" = "A B"
      ∧ nlp_py.clean_text "A\nB" = "A\nB"
      ∧ pySplit '\n' (main_py.clean_text "A\nB") = ["A B"] := by
  decide

/-! ### Idempotence of the text normalizer -/

/-- No two adjacent characters of the list are both in class `P`. -/
def NoAdjP (P : Char → Bool) (l : List Char) : Prop :=
  List.Chain' (fun a b => ¬(P a = true ∧ P b = true)) l

theorem subRuns_head_not : ∀ (l : List Char) {c : Char},
    (subRuns P true l).head? = some c → P c = false := by
  intro l
  induction l with
  | nil => intro c h; simp [subRuns] at h
  | cons a rest ih =>
    intro c h
    by_cases hp : P a = true
    · rw [subRuns, if_pos hp, if_pos rfl] at h
      exact ih h
    · rw [subRuns, if_neg hp] at h
      cases h
      exact Bool.eq_false_iff.mpr hp

theorem subRuns_noAdj : ∀ (l : List Char) (b : Bool), NoAdjP P (subRuns P b l) := by
  intro l
  induction l with
  | nil => intro b; exact List.chain'_nil
  | cons a rest ih =>
    intro b
    by_cases hp : P a = true
    · cases b with
      | true => rw [subRuns, if_pos hp, if_pos rfl]; exact ih true
      | false =>
        rw [subRuns, if_pos hp]
        simp only [Bool.false_eq_true, if_false]
        rw [NoAdjP, List.chain'_cons']
        refine ⟨?_, ih true⟩
        intro y hy
        have := subRuns_head_not rest hy
        intro hcon
        rw [this] at hcon
        cases hcon.2
    · rw [subRuns, if_neg hp]
      rw [NoAdjP, List.chain'_cons']
      refine ⟨?_, ih false⟩
      intro y _
      intro hcon
      exact hp hcon.1

theorem subRuns_allSp : ∀ (l : List Char) (b : Bool) {c : Char},
    c ∈ subRuns P b l → P c = true → c = ' ' := by
  intro l
  induction l with
  | nil => intro b c h; simp [subRuns] at h
  | cons a rest ih =>
    intro b c h hp
    by_cases hpa : P a = true
    · cases b with
      | true =>
        rw [subRuns, if_pos hpa, if_pos rfl] at h
        exact ih true h hp
      | false =>
        rw [subRuns, if_pos hpa] at h
        simp only [Bool.false_eq_true, if_false] at h
        rcases List.mem_cons.1 h with rfl | h2
        · rfl
        · exact ih true h2 hp
    · rw [subRuns, if_neg hpa] at h
      rcases List.mem_cons.1 h with rfl | h2
      · exact absurd hp hpa
      · exact ih false h2 hp

theorem subRuns_id : ∀ (l : List Char), NoAdjP P l → (∀ c ∈ l, P c = true → c = ' ') →
    subRuns P false l = l := by
  intro l
  induction l with
  | nil => intro _ _; rfl
  | cons a rest ih =>
    intro hAdj hSp
    have htail : NoAdjP P rest := (List.chain'_cons'.mp hAdj).2
    have htailSp : ∀ c ∈ rest, P c = true → c = ' ' :=
      fun c hc => hSp c (List.mem_cons_of_mem a hc)
    by_cases hp : P a = true
    · have ha : a = ' ' := hSp a (List.mem_cons_self a rest) hp
      rw [subRuns, if_pos hp]
      simp only [Bool.false_eq_true, if_false]
      have hrest : subRuns P true rest = rest := by
        cases rest with
        | nil => rfl
        | cons d rest' =>
          have hd : P d = false := by
            have := (List.chain'_cons'.mp hAdj).1 d rfl
            by_contra hcon
            rw [Bool.not_eq_false] at hcon
            exact this ⟨hp, hcon⟩
          have hdn : ¬ P d = true := by rw [hd]; exact Bool.false_ne_true
          rw [subRuns, if_neg hdn]
          have := ih htail htailSp
          rw [subRuns, if_neg hdn] at this
          exact this
      rw [hrest, ha]
    · rw [subRuns, if_neg hp, ih htail htailSp]

theorem head_dropWhile_not {q : Char → Bool} : ∀ (l : List Char) {c : Char},
    (l.dropWhile q).head? = some c → q c = false := by
  intro l
  induction l with
  | nil => intro c h; simp at h
  | cons a rest ih =>
    intro c h
    by_cases hq : q a = true
    · rw [List.dropWhile_cons_of_pos hq] at h
      exact ih h
    · rw [List.dropWhile_cons_of_neg hq] at h
      cases h
      exact Bool.eq_false_iff.mpr hq

theorem dropWhile_id_of_head {q : Char → Bool} (l : List Char)
    (h : ∀ c, l.head? = some c → q c = false) : l.dropWhile q = l := by
  cases l with
  | nil => rfl
  | cons a rest =>
    have := h a rfl
    rw [List.dropWhile_cons_of_neg (by rw [this]; exact Bool.false_ne_true)]

theorem dropEndWhile_append {q : Char → Bool} (x : List Char) :
    x = dropEndWhile q x ++ (x.reverse.takeWhile q).reverse := by
  unfold dropEndWhile
  conv_lhs => rw [← List.reverse_reverse x]
  rw [← List.reverse_append, List.takeWhile_append_dropWhile]

theorem pyStripL_head : ∀ (l : List Char) {c : Char},
    (pyStripL l).head? = some c → isPyWs c = false := by
  intro l c h
  unfold pyStripL at h
  have hx := dropEndWhile_append (q := isPyWs) (l.dropWhile isPyWs)
  rcases hm : dropEndWhile isPyWs (l.dropWhile isPyWs) with _ | ⟨a, t⟩
  · rw [hm] at h
    cases h
  · rw [hm] at h
    cases h
    rw [hm] at hx
    have : (l.dropWhile isPyWs).head? = some c := by
      rw [hx]
      rfl
    exact head_dropWhile_not l this

theorem getLast_pyStripL : ∀ (l : List Char) {c : Char},
    (pyStripL l).getLast? = some c → isPyWs c = false := by
  intro l c h
  unfold pyStripL dropEndWhile at h
  rw [← List.head?_reverse, List.reverse_reverse] at h
  exact head_dropWhile_not _ h

theorem pyStripL_stripped (z : List Char) : pyStripL (pyStripL z) = pyStripL z := by
  show dropEndWhile isPyWs ((pyStripL z).dropWhile isPyWs) = pyStripL z
  rw [dropWhile_id_of_head (pyStripL z) (fun c hc => pyStripL_head z hc)]
  show ((pyStripL z).reverse.dropWhile isPyWs).reverse = pyStripL z
  rw [dropWhile_id_of_head (pyStripL z).reverse (fun c hc => by
    rw [List.head?_reverse] at hc
    exact getLast_pyStripL z hc)]
  rw [List.reverse_reverse]

theorem chain'_dropWhile {R : Char → Char → Prop} {q : Char → Bool} :
    ∀ (l : List Char), List.Chain' R l → List.Chain' R (l.dropWhile q) := by
  intro l
  induction l with
  | nil => intro _; exact List.chain'_nil
  | cons a rest ih =>
    intro h
    by_cases hq : q a = true
    · rw [List.dropWhile_cons_of_pos hq]
      exact ih (List.chain'_cons'.mp h).2
    · rw [List.dropWhile_cons_of_neg (by rw [Bool.not_eq_true]; exact Bool.eq_false_iff.mpr hq)]
      exact h

theorem NoAdjP_reverse {l : List Char} (h : NoAdjP P l) : NoAdjP P l.reverse := by
  rw [NoAdjP, List.chain'_reverse]
  exact List.Chain'.imp (fun a b hab hcon => hab ⟨hcon.2, hcon.1⟩) h

theorem NoAdjP_pyStripL {l : List Char} (h : NoAdjP P l) : NoAdjP P (pyStripL l) := by
  unfold pyStripL dropEndWhile
  exact NoAdjP_reverse (chain'_dropWhile _ (NoAdjP_reverse (chain'_dropWhile _ h)))

theorem mem_pyStripL {l : List Char} {c : Char} (h : c ∈ pyStripL l) : c ∈ l := by
  unfold pyStripL dropEndWhile at h
  rw [List.mem_reverse] at h
  have h1 := (List.dropWhile_sublist (l := (l.dropWhile isPyWs).reverse) isPyWs).mem h
  rw [List.mem_reverse] at h1
  exact (List.dropWhile_sublist isPyWs).mem h1

theorem cleanL_idem (P : Char → Bool) (l : List Char) :
    pyStripL (subRuns P false (pyStripL (subRuns P false l)))
      = pyStripL (subRuns P false l) := by
  have hNoAdj : NoAdjP P (pyStripL (subRuns P false l)) :=
    NoAdjP_pyStripL (subRuns_noAdj l false)
  have hSp : ∀ c ∈ pyStripL (subRuns P false l), P c = true → c = ' ' :=
    fun c hc => subRuns_allSp l false (mem_pyStripL hc)
  rw [subRuns_id _ hNoAdj hSp, pyStripL_stripped]

/-! ### Claim C9 -/

/-- C9: both text normalizers are idempotent: applying clean_text twice gives
the same string as applying it once, for the nlp_py variant (horizontal
whitespace collapse) and the main.py variant (all-whitespace collapse). -/
theorem claim_C9 (s : String) :
    nlp_py.clean_text (nlp_py.clean_text s) = nlp_py.clean_text s
      ∧ main_py.clean_text (main_py.clean_text s) = main_py.clean_text s := by
  constructor
  · show pyStrip ⟨subRuns isHt false (pyStrip ⟨subRuns isHt false s.data⟩).data⟩
      = pyStrip ⟨subRuns isHt false s.data⟩
    unfold pyStrip
    rw [show ((⟨pyStripL (⟨subRuns isHt false s.data⟩ : String).data⟩ : String)).data
      = pyStripL (subRuns isHt false s.data) from rfl]
    rw [cleanL_idem isHt s.data]
  · show pyStrip ⟨subRuns isPyWs false (pyStrip ⟨subRuns isPyWs false s.data⟩).data⟩
      = pyStrip ⟨subRuns isPyWs false s.data⟩
    unfold pyStrip
    rw [show ((⟨pyStripL (⟨subRuns isPyWs false s.data⟩ : String).data⟩ : String)).data
      = pyStripL (subRuns isPyWs false s.data) from rfl]
    rw [cleanL_idem isPyWs s.data]

/-! ### Properties of the phone matcher -/

theorem scanAll_prop {step : List Char → Option (List Char × List Char)}
    {Q : List Char → Prop}
    (hstep : ∀ s m r2, step s = some (m, r2) → Q m) :
    ∀ (fuel : Nat) (s : List Char) (m : List Char), m ∈ scanAll step fuel s → Q m := by
  intro fuel
  induction fuel with
  | zero =>
    intro s m h
    cases s <;> simp [scanAll] at h
  | succ f ih =>
    intro s m h
    cases s with
    | nil => simp [scanAll] at h
    | cons c rest =>
      rcases hm : step (c :: rest) with _ | ⟨m1, r2⟩
      · simp only [scanAll, hm] at h
        exact ih rest m h
      · simp only [scanAll, hm] at h
        rcases List.mem_cons.1 h with rfl | h2
        · exact hstep (c :: rest) m r2 hm
        · exact ih r2 m h2

theorem phoneCore_prop {pre body m r2 : List Char}
    (hpre1 : 1 ≤ pre.length) (hpred : 1 ≤ (pre.filter Char.isDigit).length)
    (h : phoneCore pre body = some (m, r2)) :
    11 ≤ m.length ∧ 2 ≤ (m.filter Char.isDigit).length := by
  unfold phoneCore at h
  rcases hk : lastSat (fun m => decide (9 ≤ m) &&
      (match (body.takeWhile phoneClass).get? m with
        | some c => c.isDigit | none => false)) (body.takeWhile phoneClass).length
    with _ | k
  · rw [hk] at h
    cases h
  · rw [hk] at h
    cases h
    obtain ⟨hklt, hkP⟩ := lastSat_some hk
    rw [Bool.and_eq_true, decide_eq_true_eq] at hkP
    obtain ⟨hk9, hkd⟩ := hkP
    rcases hq : (body.takeWhile phoneClass).get? k with _ | d
    · rw [hq] at hkd
      cases hkd
    · rw [hq] at hkd
      have hdig : d.isDigit = true := hkd
      have hlen : (List.take (k + 1) (body.takeWhile phoneClass)).length = k + 1 := by
        rw [List.length_take]
        omega
      constructor
      · rw [List.length_append, hlen]
        omega
      · rw [List.filter_append, List.length_append]
        have hdm : d ∈ List.take (k + 1) (body.takeWhile phoneClass) := by
          have hq' : (List.take (k + 1) (body.takeWhile phoneClass)).get? k = some d := by
            rw [List.get?_take (Nat.lt_succ_self k)]
            exact hq
          exact List.get?_mem hq'
        have hdm2 : d ∈ (List.take (k + 1) (body.takeWhile phoneClass)).filter Char.isDigit :=
          List.mem_filter.mpr ⟨hdm, hdig⟩
        have h2 : 1 ≤ ((List.take (k + 1) (body.takeWhile phoneClass)).filter Char.isDigit).length :=
          List.length_pos.mpr (List.ne_nil_of_mem hdm2)
        omega

theorem phoneStep_prop : ∀ (s m r2 : List Char), phoneStep s = some (m, r2) →
    11 ≤ m.length ∧ 2 ≤ (m.filter Char.isDigit).length := by
  intro s m r2 h
  match s with
  | [] => simp [phoneStep] at h
  | c :: rest =>
    have h' : (if (c == '+') = true then phonePlus rest
      else if c.isDigit = true then phoneCore [c] rest else none) = some (m, r2) := h
    by_cases hc : (c == '+') = true
    · rw [if_pos hc] at h'
      match rest with
      | [] => simp [phonePlus] at h'
      | d :: rest2 =>
        have h'' : (if d.isDigit = true then phoneCore ['+', d] rest2 else none)
            = some (m, r2) := h'
        by_cases hd : d.isDigit = true
        · rw [if_pos hd] at h''
          exact phoneCore_prop (by simp) (by simp [hd]) h''
        · rw [if_neg hd] at h''
          cases h''
    · rw [if_neg hc] at h'
      by_cases hcd : c.isDigit = true
      · rw [if_pos hcd] at h'
        exact phoneCore_prop (by simp) (by simp [hcd]) h'
      · rw [if_neg hcd] at h'
        cases h'

/-! ### Claim C4 -/

/-- C4, counterexample: on the text `1---------2`, extract_contact_info
returns the phone string `1---------2`, a matched run that contains only 2
digits, not at least 11. -/
theorem claim_C4_counterexample :
    (nlp_py.extract_contact_info "1---------2").phone = ["1---------2"]
      ∧ ¬ 11 ≤ (("1---------2" : String).data.filter Char.isDigit).length := by
  decide

/-- C4, amended: every string in the phones list of extract_contact_info is
the whitespace-stripped form of a matched run of at least 11 characters
(not digits), which begins and ends with a digit — so it contains at least
2 digits — with interior characters drawn from digits, hyphens and
whitespace. -/
theorem claim_C4_amended (text p : String)
    (hp : p ∈ (nlp_py.extract_contact_info text).phone) :
    ∃ q ∈ phoneMatches text, p = removeWs q ∧ 11 ≤ q.data.length
      ∧ 2 ≤ (q.data.filter Char.isDigit).length := by
  obtain ⟨q, hq, rfl⟩ := List.mem_map.1 hp
  refine ⟨q, hq, rfl, ?_⟩
  obtain ⟨ql, hql, rfl⟩ := List.mem_map.1 hq
  exact scanAll_prop phoneStep_prop text.data.length text.data ql hql

/-- C4, witness for the amended claim at a concrete input. -/
theorem claim_C4_amended_witness :
    ∃ q ∈ phoneMatches "01712345678", ("01712345678" : String) = removeWs q
      ∧ 11 ≤ q.data.length ∧ 2 ≤ (q.data.filter Char.isDigit).length :=
  claim_C4_amended "01712345678" "01712345678" (by decide)

/-! ### Claim C7 -/

/-- C7, counterexample: the matched link `http://linkedin.com/github.com`
contains both substrings and appears in both the linkedin and the github
collections — the three collections are not pairwise disjoint, so the
matched links are not partitioned. -/
theorem claim_C7_counterexample :
    (nlp_py.extract_links "http://linkedin.com/github.com").linkedin
        = ["http://linkedin.com/github.com"]
      ∧ (nlp_py.extract_links "http://linkedin.com/github.com").github
        = ["http://linkedin.com/github.com"] := by
  decide

/-- C7, amended: extract_links covers all matched links but does not
partition them: linkedin holds every match containing `linkedin.com`
(case-insensitively), github every match containing `github.com` — a match
containing both appears in both — and other holds exactly the matches
containing neither substring, with duplicates removed; every matched link
belongs to at least one of the three collections. -/
theorem claim_C7_amended (text l : String) :
    (l ∈ (nlp_py.extract_links text).linkedin
        ↔ l ∈ linkMatches text ∧ pyContains "linkedin.com" (pyLower l) = true)
      ∧ (l ∈ (nlp_py.extract_links text).github
        ↔ l ∈ linkMatches text ∧ pyContains "github.com" (pyLower l) = true)
      ∧ (l ∈ (nlp_py.extract_links text).other
        ↔ l ∈ linkMatches text ∧ pyContains "linkedin.com" (pyLower l) = false
          ∧ pyContains "github.com" (pyLower l) = false)
      ∧ (l ∈ linkMatches text →
          l ∈ (nlp_py.extract_links text).linkedin
            ∨ l ∈ (nlp_py.extract_links text).github
            ∨ l ∈ (nlp_py.extract_links text).other) := by
  have hli : l ∈ (nlp_py.extract_links text).linkedin
      ↔ l ∈ linkMatches text ∧ pyContains "linkedin.com" (pyLower l) = true := by
    show l ∈ (linkMatches text).filter (fun u => pyContains "linkedin.com" (pyLower u)) ↔ _
    exact List.mem_filter
  have hgh : l ∈ (nlp_py.extract_links text).github
      ↔ l ∈ linkMatches text ∧ pyContains "github.com" (pyLower l) = true := by
    show l ∈ (linkMatches text).filter (fun u => pyContains "github.com" (pyLower u)) ↔ _
    exact List.mem_filter
  have hot : l ∈ (nlp_py.extract_links text).other
      ↔ l ∈ linkMatches text ∧ pyContains "linkedin.com" (pyLower l) = false
        ∧ pyContains "github.com" (pyLower l) = false := by
    show l ∈ ((linkMatches text).filter (fun u =>
        !(pyContains "linkedin.com" (pyLower u)) && !(pyContains "github.com" (pyLower u)))).dedup
      ↔ _
    rw [List.mem_dedup, List.mem_filter]
    simp only [Bool.and_eq_true, Bool.not_eq_true']
  refine ⟨hli, hgh, hot, ?_⟩
  intro hl
  by_cases h1 : pyContains "linkedin.com" (pyLower l) = true
  · exact Or.inl (hli.mpr ⟨hl, h1⟩)
  · by_cases h2 : pyContains "github.com" (pyLower l) = true
    · exact Or.inr (Or.inl (hgh.mpr ⟨hl, h2⟩))
    · exact Or.inr (Or.inr (hot.mpr ⟨hl,
        Bool.eq_false_iff.mpr h1, Bool.eq_false_iff.mpr h2⟩))

/-- C7, witness for the amended claim at a concrete input: the matched link
is covered by one of the three collections. -/
theorem claim_C7_amended_witness :
    "http://github.com/x" ∈ (nlp_py.extract_links "http://github.com/x").linkedin
      ∨ "http://github.com/x" ∈ (nlp_py.extract_links "http://github.com/x").github
      ∨ "http://github.com/x" ∈ (nlp_py.extract_links "http://github.com/x").other :=
  (claim_C7_amended "http://github.com/x" "http://github.com/x").2.2.2 (by decide)

/-! ### Claim C8 -/

/-- C8: with an empty skill vocabulary, extract_skills returns the empty
list for every token stream and every similarity score function, in both
pipeline variants: the guard returns before the tokenizer, the encoder or
the similarity computation is consulted, which the shallow embedding
renders as the result being `[]` independently of those collaborators. -/
theorem claim_C8 (tokens : List String) (score : String → String → ℚ) :
    nlp_py.extract_skills [] tokens score = []
      ∧ main_py.extract_skills [] tokens score = [] := by
  exact ⟨rfl, rfl⟩

/-! ### Claim C10 -/

theorem sortDedup_nodup_sorted (l : List String) :
    (List.insertionSort (fun a b : String => a ≤ b) l.dedup).Nodup
      ∧ List.Sorted (fun a b : String => a ≤ b)
          (List.insertionSort (fun a b : String => a ≤ b) l.dedup) := by
  constructor
  · exact ((List.perm_insertionSort (fun a b : String => a ≤ b) l.dedup).nodup_iff).mpr
      (List.nodup_dedup l)
  · exact List.sorted_insertionSort (fun a b : String => a ≤ b) l.dedup

/-- C10: the canonicalising skill matcher of nlp_py returns a list that
is duplicate-free and sorted in ascending string order, for every
vocabulary, token stream and similarity function — so for fixed inputs and
a fixed embedding model the output order is deterministic without the
caller sorting. -/
theorem claim_C10 (skillsDB tokens : List String) (score : String → String → ℚ) :
    (nlp_py.extract_skills skillsDB tokens score).Nodup
      ∧ List.Sorted (fun a b : String => a ≤ b)
          (nlp_py.extract_skills skillsDB tokens score) := by
  unfold nlp_py.extract_skills
  by_cases hdb : skillsDB.isEmpty = true
  · rw [if_pos hdb]
    exact ⟨List.nodup_nil, List.sorted_nil⟩
  · rw [if_neg hdb]
    exact sortDedup_nodup_sorted _

/-! ### Claim C6 -/

/-- C6: the record returned by parse_resume always carries every field, and
an extractor that finds nothing produces an empty collection (the embedding
is total, so no exception is possible): an absent EXPERIENCE or EDUCATION
section yields an empty experience or education list, zero email, phone or
link regex matches yield empty contact and link collections, and an empty
vocabulary yields an empty skills list. -/
theorem claim_C6 (ents : String → List (String × String))
    (tokenize : String → List String) (skillsDB : List String)
    (score : String → String → ℚ) (raw : String) :
    ((nlp_py.split_sections (nlp_py.normalize_text raw)).lookup "EXPERIENCE" = none →
      (nlp_py.parse_resume_core ents tokenize skillsDB score raw).experience = [])
    ∧ ((nlp_py.split_sections (nlp_py.normalize_text raw)).lookup "EDUCATION" = none →
      (nlp_py.parse_resume_core ents tokenize skillsDB score raw).education = [])
    ∧ (emailMatches (nlp_py.normalize_text raw) = [] →
      (nlp_py.parse_resume_core ents tokenize skillsDB score raw).contacts.email = [])
    ∧ (phoneMatches (nlp_py.normalize_text raw) = [] →
      (nlp_py.parse_resume_core ents tokenize skillsDB score raw).contacts.phone = [])
    ∧ (linkMatches (nlp_py.normalize_text raw) = [] →
      (nlp_py.parse_resume_core ents tokenize skillsDB score raw).links.linkedin = []
        ∧ (nlp_py.parse_resume_core ents tokenize skillsDB score raw).links.github = []
        ∧ (nlp_py.parse_resume_core ents tokenize skillsDB score raw).links.other = [])
    ∧ (skillsDB = [] →
      (nlp_py.parse_resume_core ents tokenize skillsDB score raw).skills = []) := by
  refine ⟨?_, ?_, ?_, ?_, ?_, ?_⟩
  · intro h
    show nlp_py.extract_experience (nlp_py.normalize_text raw) = []
    simp only [nlp_py.extract_experience, h, Option.getD_none]
    rfl
  · intro h
    show nlp_py.extract_education (nlp_py.normalize_text raw) = []
    simp only [nlp_py.extract_education, h, Option.getD_none]
    rfl
  · intro h
    show emailMatches (nlp_py.normalize_text raw) = []
    exact h
  · intro h
    show (phoneMatches (nlp_py.normalize_text raw)).map removeWs = []
    rw [h]
    rfl
  · intro h
    refine ⟨?_, ?_, ?_⟩
    · show (linkMatches (nlp_py.normalize_text raw)).filter
        (fun u => pyContains "linkedin.com" (pyLower u)) = []
      rw [h]
      rfl
    · show (linkMatches (nlp_py.normalize_text raw)).filter
        (fun u => pyContains "github.com" (pyLower u)) = []
      rw [h]
      rfl
    · show ((linkMatches (nlp_py.normalize_text raw)).filter (fun u =>
        !(pyContains "linkedin.com" (pyLower u)) && !(pyContains "github.com" (pyLower u)))).dedup
        = []
      rw [h]
      rfl
  · intro h
    subst h
    rfl

/-- C6, witness at a concrete input with no sections, no regex matches and
an empty vocabulary: every collection field of the record is present and
empty. -/
theorem claim_C6_witness :
    (nlp_py.parse_resume_core (fun _ => []) (fun _ => []) [] (fun _ _ => 0) "hello").experience = []
      ∧ (nlp_py.parse_resume_core (fun _ => []) (fun _ => []) [] (fun _ _ => 0) "hello").education = []
      ∧ (nlp_py.parse_resume_core (fun _ => []) (fun _ => []) [] (fun _ _ => 0) "hello").contacts.email = []
      ∧ (nlp_py.parse_resume_core (fun _ => []) (fun _ => []) [] (fun _ _ => 0) "hello").contacts.phone = []
      ∧ (nlp_py.parse_resume_core (fun _ => []) (fun _ => []) [] (fun _ _ => 0) "hello").links.linkedin = []
      ∧ (nlp_py.parse_resume_core (fun _ => []) (fun _ => []) [] (fun _ _ => 0) "hello").skills = [] := by
  have h := claim_C6 (fun _ => []) (fun _ => []) [] (fun _ _ => 0) "hello"
  exact ⟨h.1 (by decide), h.2.1 (by decide), h.2.2.1 (by decide), h.2.2.2.1 (by decide),
    (h.2.2.2.2.1 (by decide)).1, h.2.2.2.2.2 rfl⟩
